import Mathlib

/-
Verification of the batch data supplier in
`src/deeplearning/mcfly_datagenerator.py` (class `DataGenerator`).

Modelling conventions:
* A sample (the result of `np.load(self.filenames[idx])`) is a rational
  matrix of shape (seqlen, n_channels), embedded as `List (List ℚ)`.
  The external loader composed with the filename table is embedded as the
  list `filenames : List Sample` itself, so `np.load(self.filenames[idx])`
  becomes `cfg.filenames.getD idx []`.
* Python float arithmetic in `__len__` and in the class-quota computation
  is embedded as exact rational arithmetic (`ℚ`), with Python `//` on
  nonnegative values embedded as `Int.floor` and `int(...)` as `Int.toNat`.
* The random sources (`np.random.choice(pool, k, replace=False)`,
  `random.shuffle`, `random.choice`) are embedded as an explicit oracle
  `Rand`; theorems that depend on the numpy/random contracts state those
  contracts as hypotheses (`DrawValid`, permutation of `shuffle`).
* Failure points of the Python code (the `assert` in `__getitem__`, the
  `ValueError` raised by `np.random.choice` when the requested
  without-replacement draw exceeds the population, the `IndexError` from
  writing past the preallocated batch arrays, the broadcast error from
  `X[N:,] = aug_x` with a wrong-shaped `aug_x`, and the `assert` in
  `fit`) are embedded as `Except GenError`.
-/

namespace DataGenerator

/-- One loaded sample: a (seqlen, n_channels) array of rationals. -/
abbrev Sample := List (List ℚ)

/-- Elementwise combination of two 2-D arrays (numpy broadcasting of two
equal-shaped arrays). -/
def map2D (f : ℚ → ℚ → ℚ) (a b : Sample) : Sample :=
  List.zipWith (List.zipWith f) a b

/-- Elementwise division of a 2-D array by a natural scalar (numpy `arr/N`). -/
def scaleDiv (s : Sample) (n : ℕ) : Sample :=
  s.map (List.map (fun q => q / (n : ℚ)))

/-- `keras.utils.to_categorical`: one-hot row of length `n` for class `c`. -/
def oneHot (n c : ℕ) : List ℚ :=
  (List.range n).map (fun j => if j = c then 1 else 0)

deriving instance DecidableEq for Except

/-- Failure modes of the embedded code (Python exceptions). -/
inductive GenError where
  /-- the `assert self.aug_factor > 0.0` in `__getitem__` -/
  | configViolation
  /-- `ValueError` from `np.random.choice(pool, k, replace=False)` with `k`
  larger than the population -/
  | insufficientPopulation
  /-- `IndexError` from writing more than `batch_size` rows into the
  preallocated `X` -/
  | indexOutOfRange
  /-- broadcast error from `X[N:,] = aug_x` when `aug_x` has the wrong
  leading dimension -/
  | shapeMismatch
  /-- the `assert 'train' in self.partition` in `fit` -/
  | partitionMismatch
deriving DecidableEq

/-- The constructor arguments plus the loader: `filenames` holds the already
loaded samples (`np.load ∘ self.filenames`), `trainPartition` embeds the
test `'train' in self.partition`, and `aug_func` embeds the opaque list
`[jitter, time_warp, rotation, rand_sampling]`. -/
structure Config where
  filenames : List Sample
  labels : List ℕ
  classes : List ℕ
  trainPartition : Bool
  batch_size : ℕ
  seqlen : ℕ
  n_channels : ℕ
  n_classes : ℕ
  mean : Option Sample
  std : Option Sample
  shuffle : Bool
  augment : Bool
  aug_factor : ℚ
  aug_func : List (List Sample → List Sample)
  balance : Bool

/-- The random sources used by `__getitem__` and `__data_generation`:
`draw pool k` is the payload of `np.random.choice(pool, k, replace=False)`,
`shuffle` is `random.shuffle`/`np.random.shuffle`, `t1`/`t2` are the indices
picked by the two `random.choice(self.aug_func)` calls, and `toss` is
`random.choice([0,1]) == 1`. -/
structure Rand where
  draw : List ℕ → ℕ → List ℕ
  shuffle : List ℕ → List ℕ
  t1 : ℕ
  t2 : ℕ
  toss : Bool

/-- The numpy contract for `np.random.choice(pool, k, replace=False)`:
whenever the draw is possible it returns exactly `k` entries taken without
replacement from the pool (a permutation of a sublist). -/
def DrawValid (o : Rand) : Prop :=
  ∀ pool k, k ≤ pool.length →
    (o.draw pool k).length = k ∧ List.Subperm (o.draw pool k) pool

/-- `np.load(self.filenames[idx])`. -/
def load (cfg : Config) (idx : ℕ) : Sample :=
  cfg.filenames.getD idx []

/-- `self.labels[idx]`. -/
def labelOf (cfg : Config) (idx : ℕ) : ℕ :=
  cfg.labels.getD idx 0

/-- `all_indices[self.labels == cls]` for `all_indices = np.arange(len(self.filenames))`. -/
def classPool (cfg : Config) (cls : ℕ) : List ℕ :=
  (List.range cfg.filenames.length).filter (fun i => labelOf cfg i = cls)

/-- The per-class pools visited by `for cls in range(len(self.classes))`. -/
def classPools (cfg : Config) : List (List ℕ) :=
  (List.range cfg.classes.length).map (classPool cfg)

/-- The per-class quota of `__getitem__`:
`cls_sz = int((self.batch_size / aug_factor) // self.n_classes)` followed by
`if cls_sz * aug_factor * self.n_classes < self.batch_size: cls_sz += 1`,
where `aug_factor = 1.0 + self.aug_factor`. -/
def clsSz (cfg : Config) : ℕ :=
  let af : ℚ := 1 + cfg.aug_factor
  let c0 : ℕ := (⌊((cfg.batch_size : ℚ) / af) / (cfg.n_classes : ℚ)⌋).toNat
  if (c0 : ℚ) * af * (cfg.n_classes : ℚ) < (cfg.batch_size : ℚ) then c0 + 1 else c0

/-- The non-balanced index slice of `__getitem__`:
`st_idx = index*batch_size`, `end_idx = (index+1)*batch_size` when
`(index+1)*batch_size <= len(self.filenames)-1` else `len(self.filenames)`,
then `self.indices[st_idx:end_idx]`. -/
def sliceIndices (cfg : Config) (perm : List ℕ) (index : ℕ) : List ℕ :=
  let st := index * cfg.batch_size
  let endIdx := if (index + 1) * cfg.batch_size ≤ cfg.filenames.length - 1
    then (index + 1) * cfg.batch_size else cfg.filenames.length
  (perm.drop st).take (endIdx - st)

/-- Index selection of `__getitem__` (lines 39-62): the contiguous slice of
the epoch permutation in non-balanced mode; in balanced mode the assert on
`aug_factor`, the per-class without-replacement draws of `clsSz` indices
(a `ValueError` when some class pool is smaller than the quota), their
concatenation in class order, `random.shuffle`, and truncation to
`batch_size`. -/
def selectIndices (cfg : Config) (o : Rand) (perm : List ℕ) (index : ℕ) :
    Except GenError (List ℕ) :=
  if cfg.balance = false then
    .ok (sliceIndices cfg perm index)
  else if cfg.augment = true ∧ ¬ (0 < cfg.aug_factor) then
    .error .configViolation
  else if (classPools cfg).all (fun p => clsSz cfg ≤ p.length) then
    .ok ((o.shuffle (((classPools cfg).map (fun p => o.draw p (clsSz cfg))).flatten)).take
      cfg.batch_size)
  else
    .error .insufficientPopulation

/-- `(sample - mean) / std`, elementwise. -/
def normSample (m s x : Sample) : Sample :=
  map2D (· / ·) (map2D (· - ·) x m) s

/-- `if self.mean is not None and self.std is not None: X = (X - self.mean)/self.std`,
broadcast over the batch dimension. -/
def normalizeBatch (cfg : Config) (X : List Sample) : List Sample :=
  match cfg.mean, cfg.std with
  | some m, some s => X.map (normSample m s)
  | _, _ => X

/-- `aug_x = random.choice(self.aug_func)(aug_x)` followed by
`if toss == 1: aug_x = random.choice(self.aug_func)(aug_x)`. -/
def applyAug (cfg : Config) (o : Rand) (xs : List Sample) : List Sample :=
  let x1 := (cfg.aug_func.getD o.t1 id) xs
  if o.toss then (cfg.aug_func.getD o.t2 id) x1 else x1

/-- The raw batch assembly of `__data_generation` before normalization:
loads the selected indices into the preallocated arrays (an `IndexError`
when there are more than `batch_size` of them), and in augment mode draws
`batch_size - N` augmentation sources without replacement from the selected
indices (a `ValueError` when that draw exceeds the population), loads them,
applies the transform(s), and writes the result into `X[N:]` (a broadcast
error unless it has exactly `batch_size - N` rows). -/
def assemble (cfg : Config) (o : Rand) (indices : List ℕ) :
    Except GenError (List Sample × List ℕ) :=
  if indices.length ≤ cfg.batch_size then
    let Xload := indices.map (load cfg)
    let yload := indices.map (labelOf cfg)
    if cfg.augment = true then
      let n_aug := cfg.batch_size - indices.length
      if n_aug ≤ indices.length then
        let augIdx := o.draw indices n_aug
        let aug_x := applyAug cfg o (augIdx.map (load cfg))
        if aug_x.length = n_aug then
          .ok (Xload ++ aug_x, yload ++ augIdx.map (labelOf cfg))
        else .error .shapeMismatch
      else .error .insufficientPopulation
    else .ok (Xload, yload)
  else .error .indexOutOfRange

/-- `__data_generation` (lines 69-104): raw assembly, then normalization of
`X` and one-hot encoding of `y`. -/
def dataGeneration (cfg : Config) (o : Rand) (indices : List ℕ) :
    Except GenError (List Sample × List (List ℚ)) :=
  (assemble cfg o indices).map
    (fun Xy => (normalizeBatch cfg Xy.1, Xy.2.map (oneHot cfg.n_classes)))

/-- `__getitem__` (lines 36-67): index selection followed by `__data_generation`. -/
def getItem (cfg : Config) (o : Rand) (perm : List ℕ) (index : ℕ) :
    Except GenError (List Sample × List (List ℚ)) :=
  (selectIndices cfg o perm index).bind (dataGeneration cfg o)

/-- `on_epoch_end` (lines 106-110): `np.arange(len(self.filenames))`,
shuffled when `self.shuffle` is set. -/
def onEpochEnd (cfg : Config) (o : Rand) : List ℕ :=
  if cfg.shuffle = true then o.shuffle (List.range cfg.filenames.length)
  else List.range cfg.filenames.length

/-- `__len__` (lines 29-34):
`nbatches = int(len(self.filenames)*(1.0+self.aug_factor) // self.batch_size)`,
incremented once when `nbatches * batch_size` is still below the target. -/
def epochLen (cfg : Config) : ℕ :=
  let target : ℚ := (cfg.filenames.length : ℚ) * (1 + cfg.aug_factor)
  let nb : ℕ := (⌊target / (cfg.batch_size : ℚ)⌋).toNat
  if (nb : ℚ) * (cfg.batch_size : ℚ) < target then nb + 1 else nb

/-- `fit` (lines 112-125). `g1` and `g2` are the contents of the two
uninitialized `np.empty((seqlen, n_channels))` accumulators. Pass 1 folds
`mean += np.load(self.filenames[i])` over the dataset; `self.mean` is the
accumulated sum divided by `N`, but the local variable `mean` keeps holding
the raw sum, and pass 2 folds `std += (x - mean)**2` against that raw sum. -/
def fit (cfg : Config) (g1 g2 : Sample) : Except GenError (Sample × Sample) :=
  if cfg.trainPartition = true then
    let N := cfg.filenames.length
    let meanSum := cfg.filenames.foldl (map2D (· + ·)) g1
    let stdSum := cfg.filenames.foldl
      (fun acc x => map2D (· + ·) acc (map2D (fun a b => (a - b) ^ 2) x meanSum)) g2
    .ok (scaleDiv meanSum N, scaleDiv stdSum N)
  else .error .partitionMismatch

/-! Concrete instances used to exercise the model: a deterministic oracle
satisfying the numpy/random contracts and small configurations. -/

/-- A deterministic oracle: without-replacement draws take the first `k`
elements of the pool, shuffling is the identity, the first transform is
picked and the coin toss comes up `false`. -/
def takeOracle : Rand :=
  { draw := fun pool k => pool.take k
    shuffle := fun l => l
    t1 := 0
    t2 := 0
    toss := false }

/-- A 1×1 sample holding the value 1. -/
def sOne : Sample := [[1]]

/-- A (5, 2) all-zero sample, the shape used in the spec's concrete
balanced-mode scenario. -/
def sFiveTwo : Sample := List.replicate 5 [0, 0]

/-- Base configuration holding shared defaults for the concrete instances. -/
def baseCfg : Config :=
  { filenames := []
    labels := []
    classes := [0]
    trainPartition := true
    batch_size := 32
    seqlen := 1
    n_channels := 1
    n_classes := 1
    mean := none
    std := none
    shuffle := false
    augment := false
    aug_factor := 0
    aug_func := []
    balance := false }

/-- Dataset of 4 identical samples `[[1]]` on a training partition: the
spec's `fit` scenario. -/
def cfgC1 : Config :=
  { baseCfg with filenames := [sOne, sOne, sOne, sOne], labels := [0, 0, 0, 0] }

/-- Augmented non-balanced configuration: one sample, batch size 2, one
(identity) transform available. -/
def cfgW2 : Config :=
  { baseCfg with
    filenames := [sOne]
    labels := [0]
    batch_size := 2
    augment := true
    aug_factor := 1
    aug_func := [fun l => l] }

/-- Three samples with batch size 2 for the epoch-length witness. -/
def cfgW3 : Config :=
  { baseCfg with filenames := [sOne, sOne, sOne], labels := [0, 0, 0], batch_size := 2 }

/-- The spec's concrete balanced scenario: 10 samples of shape (5, 2),
labels `[0,0,0,0,0,1,1,1,1,1]`, batch size 4, 2 classes, balance on,
augment off, zero augmentation fraction. -/
def cfgW4 (files : List Sample) : Config :=
  { baseCfg with
    filenames := files
    labels := [0, 0, 0, 0, 0, 1, 1, 1, 1, 1]
    classes := [0, 1]
    batch_size := 4
    seqlen := 5
    n_channels := 2
    n_classes := 2
    balance := true }

/-- The 10 concrete (5, 2) samples of the balanced scenario. -/
def files10 : List Sample := List.replicate 10 sFiveTwo

/-- Five pairwise distinct 1×1 samples for the sequential-coverage witness:
batch size 2 over 5 samples, all optional behavior off. -/
def cfgW5 : Config :=
  { baseCfg with
    filenames := [[[0]], [[1]], [[2]], [[3]], [[4]]]
    labels := [0, 0, 0, 0, 0]
    batch_size := 2 }

/-- Balanced augmented configuration with zero augmentation fraction: the
configuration the `assert` in `__getitem__` rejects. -/
def cfgW7 : Config :=
  { baseCfg with
    filenames := [sOne]
    labels := [0]
    classes := [0]
    batch_size := 2
    n_classes := 1
    balance := true
    augment := true
    aug_factor := 0 }

/-- Balanced configuration whose second class has an empty pool while the
per-class quota is 2. -/
def cfgW8 : Config :=
  { baseCfg with
    filenames := [sOne]
    labels := [0]
    classes := [0, 1]
    batch_size := 4
    n_classes := 2
    balance := true }

/-- Balanced configuration with 4 samples, two per class, batch size 2:
with `takeOracle` every batch selects indices 0 and 2, so sample 0 recurs
in every batch of the epoch and sample 1 in none. -/
def cfgC9 : Config :=
  { baseCfg with
    filenames := [sOne, sOne, sOne, sOne]
    labels := [0, 0, 1, 1]
    classes := [0, 1]
    batch_size := 2
    n_classes := 2
    balance := true }

/-- Three samples with labels `[0, 1, 0]` and a class set `[5, 7]` whose
values differ from the positional class numbers. -/
def cfgW10 : Config :=
  { baseCfg with
    filenames := [sOne, sOne, sOne]
    labels := [0, 1, 0]
    classes := [5, 7]
    n_classes := 2 }

end DataGenerator

open DataGenerator

/-! Helper lemmas shared by the claim theorems. -/

theorem takeOracle_drawValid : DrawValid takeOracle := by
  intro pool k hk
  constructor
  · simpa [takeOracle] using hk
  · exact (List.take_sublist k pool).subperm

theorem takeOracle_shuffle_perm (l : List ℕ) : List.Perm (takeOracle.shuffle l) l :=
  List.Perm.refl l

/-- C1: on the dataset of 4 identical samples `[[1]]` (with both `np.empty`
accumulators holding zeros), `fit` returns mean `[[1]]` — equal to the
sample, as the claim states — but std `[[9]]` rather than the all-zero std
the claim requires: pass 2 measures squared deviation from the pass-1
accumulated sum (the local variable `mean`, still holding `[[4]]`), not
from the pass-1 mean `self.mean = [[1]]`. -/
theorem C1_fit_squared_deviation_bug :
    fit cfgC1 [[0]] [[0]] = .ok ([[1]], [[9]]) ∧ (9 : ℚ) ≠ 0 := by
  constructor
  · simp only [fit, cfgC1, baseCfg, sOne, map2D, scaleDiv, List.foldl, List.zipWith,
      List.map, List.length_cons, List.length_nil, if_pos rfl]
    norm_num
  · norm_num

theorem dataGeneration_ne_configViolation (cfg : Config) (o : Rand) (indices : List ℕ) :
    dataGeneration cfg o indices ≠ .error .configViolation := by
  unfold dataGeneration
  cases h : assemble cfg o indices with
  | ok p => simp [Except.map]
  | error e =>
    suffices he : e ≠ .configViolation by simp [Except.map, he]
    unfold assemble at h
    dsimp only at h
    split at h
    · split at h
      · split at h
        · split at h
          · exact Except.noConfusion h
          · injection h with h2
            subst h2
            decide
        · injection h with h2
          subst h2
          decide
      · exact Except.noConfusion h
    · injection h with h2
      subst h2
      decide

/-- C6: for every batch produced by `__data_generation`, when both mean and
std are set every output sample is `(raw - mean) / std` elementwise,
broadcast over the batch dimension, and when both are `None` the output
equals the raw assembled batch with no transformation applied. -/
theorem C6_normalization (cfg : Config) (o : Rand) (indices : List ℕ)
    (X : List Sample) (y : List (List ℚ))
    (hok : dataGeneration cfg o indices = .ok (X, y)) :
    ∃ rawX rawY, assemble cfg o indices = .ok (rawX, rawY) ∧
      (∀ m s, cfg.mean = some m → cfg.std = some s → X = rawX.map (normSample m s)) ∧
      (cfg.mean = none → cfg.std = none → X = rawX) := by
  cases h : assemble cfg o indices with
  | error e => simp [dataGeneration, h, Except.map] at hok
  | ok p =>
    have hX : X = normalizeBatch cfg p.1 := by
      simp [dataGeneration, h, Except.map] at hok
      exact hok.1.symm
    refine ⟨p.1, p.2, by simp [h], ?_, ?_⟩
    · intro m s hm hs
      rw [hX]
      simp [normalizeBatch, hm, hs]
    · intro hm hs
      rw [hX]
      simp [normalizeBatch, hm, hs]

theorem C6_normalization_witness :
    ∃ rawX rawY, assemble cfgC1 takeOracle [0] = .ok (rawX, rawY) ∧
      (∀ m s, cfgC1.mean = some m → cfgC1.std = some s →
        [sOne] = rawX.map (normSample m s)) ∧
      (cfgC1.mean = none → cfgC1.std = none → [sOne] = rawX) :=
  C6_normalization cfgC1 takeOracle [0] [sOne] [oneHot 1 0] rfl

/-- C7: in balanced mode with augmentation enabled, `__getitem__` fails with
the configuration-violation error exactly when the augmentation fraction is
not strictly positive; with a strictly positive fraction the error branch is
unreachable (no execution path returns it). -/
theorem C7_balanced_augment_assert (cfg : Config) (o : Rand) (perm : List ℕ)
    (index : ℕ) (hbal : cfg.balance = true) (haug : cfg.augment = true) :
    (¬ 0 < cfg.aug_factor → getItem cfg o perm index = .error .configViolation) ∧
    (0 < cfg.aug_factor → getItem cfg o perm index ≠ .error .configViolation) := by
  constructor
  · intro hneg
    simp [getItem, selectIndices, hbal, haug, hneg, Except.bind]
  · intro hpos
    unfold getItem selectIndices
    rw [hbal]
    simp only [Bool.true_eq_false, if_false, haug, true_and, not_lt]
    rw [if_neg (by simpa [not_le] using hpos)]
    split
    · exact dataGeneration_ne_configViolation cfg o _
    · simp [Except.bind]

theorem C7_witness :
    getItem cfgW7 takeOracle [] 0 = .error .configViolation :=
  (C7_balanced_augment_assert cfgW7 takeOracle [] 0 rfl rfl).1 (lt_irrefl 0)

theorem isLeast_floorStep (t d : ℚ) (ht : 0 ≤ t) (hd : 0 < d) :
    IsLeast {n : ℕ | t ≤ (n : ℚ) * d}
      (if ((⌊t / d⌋.toNat : ℚ) * d < t) then ⌊t / d⌋.toNat + 1 else ⌊t / d⌋.toNat) := by
  have hfl : (0:ℤ) ≤ ⌊t / d⌋ := Int.floor_nonneg.mpr (div_nonneg ht hd.le)
  have hcastQ : ((⌊t / d⌋.toNat : ℚ)) = ((⌊t / d⌋ : ℤ) : ℚ) := by
    exact_mod_cast congrArg (fun z : ℤ => (z : ℚ)) (Int.toNat_of_nonneg hfl)
  constructor
  · simp only [Set.mem_setOf_eq]
    split
    case isTrue h =>
      have h1 : t / d < ((⌊t / d⌋ : ℤ) : ℚ) + 1 := Int.lt_floor_add_one (t / d)
      have h2 : t < (((⌊t / d⌋ : ℤ) : ℚ) + 1) * d := by
        have h3 := mul_lt_mul_of_pos_right h1 hd
        rwa [div_mul_cancel₀ t hd.ne'] at h3
      push_cast [hcastQ]
      linarith
    case isFalse h =>
      exact not_lt.mp h
  · intro m hm
    simp only [Set.mem_setOf_eq] at hm
    split
    case isTrue h =>
      have h1 : (⌊t / d⌋.toNat : ℚ) * d < (m : ℚ) * d := lt_of_lt_of_le h hm
      have h2 : (⌊t / d⌋.toNat : ℚ) < (m : ℚ) := lt_of_mul_lt_mul_right h1 hd.le
      have h3 : ⌊t / d⌋.toNat < m := by exact_mod_cast h2
      omega
    case isFalse h =>
      have h1 : t / d ≤ (m : ℚ) := (div_le_iff₀ hd).mpr hm
      have h2 : ⌊t / d⌋ ≤ (m : ℤ) := by
        have := Int.floor_le_floor h1
        rwa [Int.floor_natCast] at this
      exact Int.toNat_le.mpr h2

theorem isLeast_ceilDiv (t d : ℚ) (ht : 0 ≤ t) (hd : 0 < d) :
    IsLeast {n : ℕ | t ≤ (n : ℚ) * d} (⌈t / d⌉.toNat) := by
  have h0 : (0:ℤ) ≤ ⌈t / d⌉ := Int.ceil_nonneg (div_nonneg ht hd.le)
  have hc : ((⌈t / d⌉.toNat : ℚ)) = ((⌈t / d⌉ : ℤ) : ℚ) := by
    exact_mod_cast congrArg (fun z : ℤ => (z : ℚ)) (Int.toNat_of_nonneg h0)
  constructor
  · simp only [Set.mem_setOf_eq]
    rw [hc, ← div_le_iff₀ hd]
    exact Int.le_ceil (t / d)
  · intro m hm
    simp only [Set.mem_setOf_eq] at hm
    have h1 : t / d ≤ ((m : ℤ) : ℚ) := by exact_mod_cast (div_le_iff₀ hd).mpr hm
    exact Int.toNat_le.mpr (Int.ceil_le.mpr h1)

theorem epochLen_isLeast (cfg : Config) (hb : 0 < cfg.batch_size)
    (ha : 0 ≤ cfg.aug_factor) :
    IsLeast {n : ℕ | (cfg.filenames.length : ℚ) * (1 + cfg.aug_factor)
      ≤ (n : ℚ) * (cfg.batch_size : ℚ)} (epochLen cfg) := by
  have ht : (0:ℚ) ≤ (cfg.filenames.length : ℚ) * (1 + cfg.aug_factor) :=
    mul_nonneg (Nat.cast_nonneg _) (by linarith)
  have hd : (0:ℚ) < (cfg.batch_size : ℚ) := by exact_mod_cast hb
  have h := isLeast_floorStep ((cfg.filenames.length : ℚ) * (1 + cfg.aug_factor))
    (cfg.batch_size : ℚ) ht hd
  have he : epochLen cfg = (if ((⌊(cfg.filenames.length : ℚ) * (1 + cfg.aug_factor) / (cfg.batch_size : ℚ)⌋.toNat : ℚ) * (cfg.batch_size : ℚ) < (cfg.filenames.length : ℚ) * (1 + cfg.aug_factor)) then ⌊(cfg.filenames.length : ℚ) * (1 + cfg.aug_factor) / (cfg.batch_size : ℚ)⌋.toNat + 1 else ⌊(cfg.filenames.length : ℚ) * (1 + cfg.aug_factor) / (cfg.batch_size : ℚ)⌋.toNat) := by
    unfold epochLen
    rfl
  rw [he]
  exact h

theorem clsSz_isLeast (cfg : Config) (ha : 0 ≤ cfg.aug_factor)
    (hc : 0 < cfg.n_classes) :
    IsLeast {n : ℕ | (cfg.batch_size : ℚ)
      ≤ (n : ℚ) * ((1 + cfg.aug_factor) * (cfg.n_classes : ℚ))} (clsSz cfg) := by
  have hcq : (0:ℚ) < (cfg.n_classes : ℚ) := by exact_mod_cast hc
  have hd : (0:ℚ) < (1 + cfg.aug_factor) * (cfg.n_classes : ℚ) := by nlinarith
  have ht : (0:ℚ) ≤ (cfg.batch_size : ℚ) := Nat.cast_nonneg _
  have h := isLeast_floorStep (cfg.batch_size : ℚ)
    ((1 + cfg.aug_factor) * (cfg.n_classes : ℚ)) ht hd
  have he : clsSz cfg = (if ((⌊(cfg.batch_size : ℚ) / ((1 + cfg.aug_factor) * (cfg.n_classes : ℚ))⌋.toNat : ℚ) * ((1 + cfg.aug_factor) * (cfg.n_classes : ℚ)) < (cfg.batch_size : ℚ)) then ⌊(cfg.batch_size : ℚ) / ((1 + cfg.aug_factor) * (cfg.n_classes : ℚ))⌋.toNat + 1 else ⌊(cfg.batch_size : ℚ) / ((1 + cfg.aug_factor) * (cfg.n_classes : ℚ))⌋.toNat) := by
    unfold clsSz
    dsimp only
    rw [div_div, mul_assoc]
  rw [he]
  exact h

/-- C3: `__len__` returns the least integer `n` such that
`n * batch_size >= len(dataset) * (1 + aug_factor)`: it rounds up on any
remainder and is a pure function of the configuration. -/
theorem C3_epoch_length_least (cfg : Config) (hb : 0 < cfg.batch_size)
    (ha : 0 ≤ cfg.aug_factor) :
    IsLeast {n : ℕ | (cfg.filenames.length : ℚ) * (1 + cfg.aug_factor)
      ≤ (n : ℚ) * (cfg.batch_size : ℚ)} (epochLen cfg) :=
  epochLen_isLeast cfg hb ha

theorem C3_witness :
    0 < cfgW3.batch_size ∧ 0 ≤ cfgW3.aug_factor ∧
      IsLeast {n : ℕ | (cfgW3.filenames.length : ℚ) * (1 + cfgW3.aug_factor)
        ≤ (n : ℚ) * (cfgW3.batch_size : ℚ)} (epochLen cfgW3) :=
  ⟨by decide, le_refl 0, C3_epoch_length_least cfgW3 (by decide) (le_refl 0)⟩

theorem length_normalizeBatch (cfg : Config) (X : List Sample) :
    (normalizeBatch cfg X).length = X.length := by
  unfold normalizeBatch
  split
  · exact List.length_map X _
  · rfl

theorem cfgW4_pools : classPools (cfgW4 files10) = [[0, 1, 2, 3, 4], [5, 6, 7, 8, 9]] := by
  decide

theorem cfgW4_clsSz : clsSz (cfgW4 files10) = 2 := by
  simp only [clsSz, cfgW4, baseCfg]
  norm_num [show Int.toNat 2 = 2 from rfl]

theorem cfgW4_label0 : ∀ a ∈ ([0, 1, 2, 3, 4] : List ℕ), labelOf (cfgW4 files10) a = 0 := by
  decide

theorem cfgW4_label1 : ∀ a ∈ ([5, 6, 7, 8, 9] : List ℕ), labelOf (cfgW4 files10) a = 1 := by
  decide

theorem cfgW4_sel (o : Rand) (perm : List ℕ) (index : ℕ) :
    selectIndices (cfgW4 files10) o perm index =
      .ok ((o.shuffle (o.draw [0, 1, 2, 3, 4] 2 ++ o.draw [5, 6, 7, 8, 9] 2)).take 4) := by
  unfold selectIndices
  rw [cfgW4_pools]
  simp only [cfgW4_clsSz]
  norm_num [cfgW4, baseCfg]

theorem cfgW4_counts (o : Rand) (perm : List ℕ) (index : ℕ) (X : List Sample)
    (y : List (List ℚ)) (ho : DrawValid o)
    (hshuf : ∀ l, List.Perm (o.shuffle l) l)
    (hok : getItem (cfgW4 files10) o perm index = .ok (X, y)) :
    X.length = 4 ∧
    y.countP (fun r => decide (r = oneHot 2 0)) = 2 ∧
    y.countP (fun r => decide (r = oneHot 2 1)) = 2 := by
  have hd0 := ho [0, 1, 2, 3, 4] 2 (by decide)
  have hd1 := ho [5, 6, 7, 8, 9] 2 (by decide)
  set d0 := o.draw [0, 1, 2, 3, 4] 2 with hd0def
  set d1 := o.draw [5, 6, 7, 8, 9] 2 with hd1def
  have hperm : List.Perm (o.shuffle (d0 ++ d1)) (d0 ++ d1) := hshuf _
  have hlen : (o.shuffle (d0 ++ d1)).length = 4 := by
    rw [hperm.length_eq, List.length_append, hd0.1, hd1.1]
  have htake : (o.shuffle (d0 ++ d1)).take 4 = o.shuffle (d0 ++ d1) :=
    List.take_of_length_le (le_of_eq hlen)
  unfold getItem at hok
  rw [cfgW4_sel o perm index] at hok
  rw [htake] at hok
  simp only [Except.bind] at hok
  set sel := o.shuffle (d0 ++ d1) with hseldef
  have hsellen : sel.length = 4 := hlen
  unfold dataGeneration assemble at hok
  rw [if_pos (by rw [hsellen]; exact le_refl 4 : sel.length ≤ (cfgW4 files10).batch_size)] at hok
  rw [if_neg (by simp [cfgW4, baseCfg] : ¬ (cfgW4 files10).augment = true)] at hok
  simp only [Except.map] at hok
  have hX : X = normalizeBatch (cfgW4 files10) (sel.map (load (cfgW4 files10))) := by
    exact congrArg Prod.fst (Except.ok.inj hok) |>.symm
  have hy : y = (sel.map (labelOf (cfgW4 files10))).map (oneHot (cfgW4 files10).n_classes) := by
    exact congrArg Prod.snd (Except.ok.inj hok) |>.symm
  refine ⟨?_, ?_, ?_⟩
  · rw [hX, length_normalizeBatch, List.length_map, hsellen]
  · rw [hy, List.map_map, List.countP_map]
    have hcp : List.countP ((fun r => decide (r = oneHot 2 0)) ∘
        (oneHot (cfgW4 files10).n_classes ∘ labelOf (cfgW4 files10))) (d0 ++ d1) =
        List.countP _ sel := (hperm.countP_eq _).symm
    rw [← hcp, List.countP_append]
    have h0 : List.countP ((fun r => decide (r = oneHot 2 0)) ∘
        (oneHot (cfgW4 files10).n_classes ∘ labelOf (cfgW4 files10))) d0 = d0.length := by
      apply List.countP_eq_length.mpr
      intro a ha
      have hmem : a ∈ ([0, 1, 2, 3, 4] : List ℕ) := hd0.2.subset ha
      have hl : labelOf (cfgW4 files10) a = 0 := cfgW4_label0 a hmem
      simp only [Function.comp_apply, show (cfgW4 files10).n_classes = 2 from rfl, hl]
      decide
    have h1 : List.countP ((fun r => decide (r = oneHot 2 0)) ∘
        (oneHot (cfgW4 files10).n_classes ∘ labelOf (cfgW4 files10))) d1 = 0 := by
      rw [List.countP_eq_zero]
      intro a ha
      have hmem : a ∈ ([5, 6, 7, 8, 9] : List ℕ) := hd1.2.subset ha
      have hl : labelOf (cfgW4 files10) a = 1 := cfgW4_label1 a hmem
      simp only [Function.comp_apply, show (cfgW4 files10).n_classes = 2 from rfl, hl]
      decide
    rw [h0, h1, hd0.1]
  · rw [hy, List.map_map, List.countP_map]
    have hcp : List.countP ((fun r => decide (r = oneHot 2 1)) ∘
        (oneHot (cfgW4 files10).n_classes ∘ labelOf (cfgW4 files10))) (d0 ++ d1) =
        List.countP _ sel := (hperm.countP_eq _).symm
    rw [← hcp, List.countP_append]
    have h0 : List.countP ((fun r => decide (r = oneHot 2 1)) ∘
        (oneHot (cfgW4 files10).n_classes ∘ labelOf (cfgW4 files10))) d0 = 0 := by
      rw [List.countP_eq_zero]
      intro a ha
      have hmem : a ∈ ([0, 1, 2, 3, 4] : List ℕ) := hd0.2.subset ha
      have hl : labelOf (cfgW4 files10) a = 0 := cfgW4_label0 a hmem
      simp only [Function.comp_apply, show (cfgW4 files10).n_classes = 2 from rfl, hl]
      decide
    have h1 : List.countP ((fun r => decide (r = oneHot 2 1)) ∘
        (oneHot (cfgW4 files10).n_classes ∘ labelOf (cfgW4 files10))) d1 = d1.length := by
      apply List.countP_eq_length.mpr
      intro a ha
      have hmem : a ∈ ([5, 6, 7, 8, 9] : List ℕ) := hd1.2.subset ha
      have hl : labelOf (cfgW4 files10) a = 1 := cfgW4_label1 a hmem
      simp only [Function.comp_apply, show (cfgW4 files10).n_classes = 2 from rfl, hl]
      decide
    rw [h0, h1, hd1.1]


/-- C4: the per-class target count equals
`ceil(batch_size / ((1 + aug_factor) * n_classes))`, and in the concrete
scenario (10 samples, labels `[0,0,0,0,0,1,1,1,1,1]`, batch size 4, two
classes, balance on, augment off, zero augmentation fraction) every batch
`__getitem__` returns holds exactly 2 class-0 and 2 class-1 samples,
whatever the random draws and shuffles. -/
theorem C4_scenario_quota_test :
    (∀ cfg : Config, 0 ≤ cfg.aug_factor → 0 < cfg.n_classes →
      clsSz cfg =
        (⌈(cfg.batch_size : ℚ) / ((1 + cfg.aug_factor) * (cfg.n_classes : ℚ))⌉).toNat) ∧
    (∀ (o : Rand) (perm : List ℕ) (index : ℕ) (X : List Sample) (y : List (List ℚ)),
      DrawValid o → (∀ l, List.Perm (o.shuffle l) l) →
      getItem (cfgW4 files10) o perm index = .ok (X, y) →
      X.length = 4 ∧
      y.countP (fun r => decide (r = oneHot 2 0)) = 2 ∧
      y.countP (fun r => decide (r = oneHot 2 1)) = 2) := by
  constructor
  · intro cfg ha hc
    have hcq : (0:ℚ) < (cfg.n_classes : ℚ) := by exact_mod_cast hc
    have hd : (0:ℚ) < (1 + cfg.aug_factor) * (cfg.n_classes : ℚ) := by nlinarith
    have ht : (0:ℚ) ≤ (cfg.batch_size : ℚ) := Nat.cast_nonneg _
    exact (clsSz_isLeast cfg ha hc).unique (isLeast_ceilDiv _ _ ht hd)
  · exact fun o perm index X y => cfgW4_counts o perm index X y

theorem cfgW4_eval : getItem (cfgW4 files10) takeOracle [] 0 =
    .ok ([sFiveTwo, sFiveTwo, sFiveTwo, sFiveTwo],
      [oneHot 2 0, oneHot 2 0, oneHot 2 1, oneHot 2 1]) := by
  unfold getItem
  rw [cfgW4_sel takeOracle [] 0]
  decide

theorem C4_witness :
    0 ≤ (cfgW4 files10).aug_factor ∧ 0 < (cfgW4 files10).n_classes ∧
    clsSz (cfgW4 files10) =
      (⌈((cfgW4 files10).batch_size : ℚ) /
        ((1 + (cfgW4 files10).aug_factor) * ((cfgW4 files10).n_classes : ℚ))⌉).toNat ∧
    getItem (cfgW4 files10) takeOracle [] 0 =
      .ok ([sFiveTwo, sFiveTwo, sFiveTwo, sFiveTwo],
        [oneHot 2 0, oneHot 2 0, oneHot 2 1, oneHot 2 1]) ∧
    ([oneHot 2 0, oneHot 2 0, oneHot 2 1, oneHot 2 1] : List (List ℚ)).countP
      (fun r => decide (r = oneHot 2 0)) = 2 ∧
    ([oneHot 2 0, oneHot 2 0, oneHot 2 1, oneHot 2 1] : List (List ℚ)).countP
      (fun r => decide (r = oneHot 2 1)) = 2 := by
  refine ⟨le_refl 0, by decide, ?_, cfgW4_eval, ?_, ?_⟩
  · exact (C4_scenario_quota_test.1 (cfgW4 files10) (le_refl 0) (by decide))
  · exact (C4_scenario_quota_test.2 takeOracle [] 0 _ _ takeOracle_drawValid
      takeOracle_shuffle_perm cfgW4_eval).2.1
  · exact (C4_scenario_quota_test.2 takeOracle [] 0 _ _ takeOracle_drawValid
      takeOracle_shuffle_perm cfgW4_eval).2.2


/-- C2: in augmented mode every `__getitem__` call that returns yields
exactly `batch_size` samples and labels; writing `N` for the number of
selected indices, when `N < batch_size` exactly `batch_size - N`
augmentation sources are drawn without replacement from the selected
indices, their samples and labels fill the tail (one randomly chosen
transform applied to the whole tail, plus a second independent one when the
coin toss says so), and when `N >= batch_size` no augmentation tail is
produced. -/
theorem C2_augmented_batch (cfg : Config) (o : Rand) (perm : List ℕ) (index : ℕ)
    (X : List Sample) (y : List (List ℚ))
    (haug : cfg.augment = true) (ho : DrawValid o)
    (hok : getItem cfg o perm index = .ok (X, y)) :
    X.length = cfg.batch_size ∧ y.length = cfg.batch_size ∧
    ∃ sel, selectIndices cfg o perm index = .ok sel ∧
      sel.length ≤ cfg.batch_size ∧
      (o.draw sel (cfg.batch_size - sel.length)).length = cfg.batch_size - sel.length ∧
      List.Subperm (o.draw sel (cfg.batch_size - sel.length)) sel ∧
      X = normalizeBatch cfg (sel.map (load cfg) ++
        applyAug cfg o ((o.draw sel (cfg.batch_size - sel.length)).map (load cfg))) ∧
      y = (sel.map (labelOf cfg) ++
        (o.draw sel (cfg.batch_size - sel.length)).map (labelOf cfg)).map
        (oneHot cfg.n_classes) ∧
      (cfg.batch_size ≤ sel.length → X = normalizeBatch cfg (sel.map (load cfg))) := by
  unfold getItem at hok
  cases hsel : selectIndices cfg o perm index with
  | error e => rw [hsel] at hok; simp [Except.bind] at hok
  | ok sel =>
    rw [hsel] at hok
    simp only [Except.bind] at hok
    unfold dataGeneration assemble at hok
    dsimp only at hok
    rw [if_pos haug] at hok
    split at hok
    case isFalse => simp [Except.map] at hok
    case isTrue h1 =>
      split at hok
      case isFalse => simp [Except.map] at hok
      case isTrue h2 =>
        split at hok
        case isFalse => simp [Except.map] at hok
        case isTrue h3 =>
          simp only [Except.map, Except.ok.injEq, Prod.mk.injEq] at hok
          obtain ⟨hXeq, hyeq⟩ := hok
          have hdraw := ho sel (cfg.batch_size - sel.length) h2
          have hauglen : (applyAug cfg o
              ((o.draw sel (cfg.batch_size - sel.length)).map (load cfg))).length =
              cfg.batch_size - sel.length := h3
          refine ⟨?_, ?_, sel, rfl, h1, hdraw.1, hdraw.2, hXeq.symm, hyeq.symm, ?_⟩
          · rw [← hXeq, length_normalizeBatch, List.length_append, List.length_map,
              hauglen]
            omega
          · rw [← hyeq, List.length_map, List.length_append, List.length_map,
              List.length_map, hdraw.1]
            omega
          · intro hge
            have hz : cfg.batch_size - sel.length = 0 := by omega
            have hempty : applyAug cfg o
                ((o.draw sel (cfg.batch_size - sel.length)).map (load cfg)) = [] :=
              List.length_eq_zero.mp (by rw [hauglen, hz])
            rw [← hXeq, hempty, List.append_nil]

theorem C2_witness :
    ([sOne, sOne] : List Sample).length = cfgW2.batch_size ∧
    ([oneHot 1 0, oneHot 1 0] : List (List ℚ)).length = cfgW2.batch_size :=
  have h := C2_augmented_batch cfgW2 takeOracle [0] 0 [sOne, sOne]
    [oneHot 1 0, oneHot 1 0] rfl takeOracle_drawValid (by decide)
  ⟨h.1, h.2.1⟩

theorem cfgW8_clsSz : clsSz cfgW8 = 2 := by
  simp only [clsSz, cfgW8, baseCfg]
  norm_num [show Int.toNat 2 = 2 from rfl]

theorem cfgC9_clsSz : clsSz cfgC9 = 1 := by
  simp only [clsSz, cfgC9, baseCfg]
  norm_num [show Int.toNat 1 = 1 from rfl]

theorem cfgC9_epochLen : epochLen cfgC9 = 2 := by
  simp only [epochLen, cfgC9, baseCfg]
  norm_num [show Int.toNat 2 = 2 from rfl]

theorem selectIndices_balanced_indep (cfg : Config) (o : Rand) (perm perm' : List ℕ)
    (i j : ℕ) (hbal : cfg.balance = true) :
    selectIndices cfg o perm i = selectIndices cfg o perm' j := by
  unfold selectIndices
  rw [hbal]
  simp

/-- C8: in balanced mode (with the augmentation assert satisfied), whenever
some class pool is smaller than the per-class quota, `__getitem__` fails
with the insufficient-population error; when every pool is large enough the
selection draws exactly the quota from every class pool without replacement
(never truncating the quota and never falling back to replacement). -/
theorem C8_insufficient_population (cfg : Config) (o : Rand) (perm : List ℕ)
    (index : ℕ) (hbal : cfg.balance = true)
    (hpos : cfg.augment = true → 0 < cfg.aug_factor) :
    ((∃ p ∈ classPools cfg, p.length < clsSz cfg) →
      getItem cfg o perm index = .error .insufficientPopulation) ∧
    ((∀ p ∈ classPools cfg, clsSz cfg ≤ p.length) → DrawValid o →
      selectIndices cfg o perm index =
        .ok ((o.shuffle (((classPools cfg).map
          (fun p => o.draw p (clsSz cfg))).flatten)).take cfg.batch_size) ∧
      ∀ p ∈ classPools cfg, (o.draw p (clsSz cfg)).length = clsSz cfg ∧
        List.Subperm (o.draw p (clsSz cfg)) p) := by
  have hcond : ¬ (cfg.augment = true ∧ ¬ 0 < cfg.aug_factor) := by
    rintro ⟨h1, h2⟩
    exact h2 (hpos h1)
  constructor
  · intro ⟨p, hp, hplen⟩
    have hall : ¬ ((classPools cfg).all (fun p => clsSz cfg ≤ p.length) = true) := by
      rw [List.all_eq_true]
      intro hforall
      have := hforall p hp
      simp only [decide_eq_true_eq] at this
      omega
    unfold getItem selectIndices
    rw [hbal]
    simp only [Bool.true_eq_false, if_false, if_neg hcond, if_neg hall]
    simp [Except.bind]
  · intro hall ho
    have hallb : (classPools cfg).all (fun p => clsSz cfg ≤ p.length) = true := by
      rw [List.all_eq_true]
      intro p hp
      simp only [decide_eq_true_eq]
      exact hall p hp
    constructor
    · unfold selectIndices
      rw [hbal]
      simp only [Bool.true_eq_false, if_false, if_neg hcond, if_pos hallb]
    · intro p hp
      refine ho p (clsSz cfg) (hall p hp)

theorem C8_witness :
    getItem cfgW8 takeOracle [] 0 = .error .insufficientPopulation :=
  (C8_insufficient_population cfgW8 takeOracle [] 0 rfl
    (fun h => absurd h (by decide))).1
    ⟨[], by decide, by rw [cfgW8_clsSz]; decide⟩

/-- C9: in balanced mode `__getitem__` reads neither the batch index nor
the epoch permutation: with the same random sources any two indices and any
two permutations give the same batch; consequently (concretely on `cfgC9`
with the deterministic oracle) every one of the 2 batches of the epoch
selects indices 0 and 2, so sample 0 recurs in every batch and sample 1
appears in none. -/
theorem C9_balanced_ignores_index (cfg : Config) (o : Rand) (perm perm' : List ℕ)
    (i j : ℕ) (hbal : cfg.balance = true) :
    getItem cfg o perm i = getItem cfg o perm' j ∧
    (∃ sel : List ℕ,
      (∀ index : ℕ, ∀ q : List ℕ, selectIndices cfgC9 takeOracle q index = .ok sel) ∧
      0 ∈ sel ∧ 1 ∉ sel ∧ epochLen cfgC9 = 2) := by
  constructor
  · unfold getItem
    rw [selectIndices_balanced_indep cfg o perm perm' i j hbal]
  · refine ⟨[0, 2], ?_, by decide, by decide, cfgC9_epochLen⟩
    intro index q
    rw [selectIndices_balanced_indep cfgC9 takeOracle q [] index 0 rfl]
    unfold selectIndices
    simp only [cfgC9_clsSz]
    decide

theorem C9_witness :
    getItem cfgC9 takeOracle [0, 1, 2, 3] 0 = getItem cfgC9 takeOracle [3, 2, 1, 0] 5 :=
  (C9_balanced_ignores_index cfgC9 takeOracle [0, 1, 2, 3] [3, 2, 1, 0] 0 5 rfl).1

/-- C10: the balanced-mode class pools compare each label against the
positional class numbers `0 .. len(classes)-1`: when all labels lie in that
range each index lands in exactly the pool of its own label (pools partition
the dataset by label), and the pools are unchanged by replacing the class
set with any other list of the same length — the configured class values
are never consulted. -/
theorem C10_positional_class_pools (cfg : Config)
    (hlen : cfg.labels.length = cfg.filenames.length)
    (hlab : ∀ l ∈ cfg.labels, l < cfg.classes.length) :
    (∀ i, i < cfg.filenames.length →
      labelOf cfg i < cfg.classes.length ∧ i ∈ classPool cfg (labelOf cfg i)) ∧
    (∀ c c' i, c ≠ c' → i ∈ classPool cfg c → i ∉ classPool cfg c') ∧
    (∀ cs : List ℕ, cs.length = cfg.classes.length →
      classPools { cfg with classes := cs } = classPools cfg) := by
  refine ⟨?_, ?_, ?_⟩
  · intro i hi
    have hilt : i < cfg.labels.length := by omega
    have hmem : labelOf cfg i ∈ cfg.labels := by
      unfold labelOf
      rw [List.getD_eq_getElem cfg.labels 0 hilt]
      exact List.getElem_mem hilt
    refine ⟨hlab _ hmem, ?_⟩
    simp [classPool, List.mem_filter, List.mem_range, hi]
  · intro c c' i hne h1 h2
    simp only [classPool, List.mem_filter, decide_eq_true_eq] at h1 h2
    exact hne (h1.2.symm.trans h2.2)
  · intro cs hcs
    unfold classPools
    rw [show ({ cfg with classes := cs } : Config).classes.length = cs.length from rfl, hcs]
    rfl

theorem C10_witness :
    (labelOf cfgW10 0 < cfgW10.classes.length ∧
      0 ∈ classPool cfgW10 (labelOf cfgW10 0)) ∧
    classPools { cfgW10 with classes := [9, 9] } = classPools cfgW10 :=
  ⟨(C10_positional_class_pools cfgW10 (by decide) (by decide)).1 0 (by decide),
    (C10_positional_class_pools cfgW10 (by decide) (by decide)).2.2 [9, 9] (by decide)⟩

theorem normalizeBatch_none (cfg : Config) (X : List Sample)
    (hmean : cfg.mean = none) : normalizeBatch cfg X = X := by
  unfold normalizeBatch
  rw [hmean]

theorem sliceIndices_minEq (cfg : Config) (perm : List ℕ) (i : ℕ) :
    sliceIndices cfg perm i = (perm.drop (i * cfg.batch_size)).take
      (min ((i + 1) * cfg.batch_size) cfg.filenames.length - i * cfg.batch_size) := by
  unfold sliceIndices
  dsimp only
  congr 1
  split <;> omega

theorem flat_slices (cfg : Config) (k : ℕ) :
    ((List.range k).map (sliceIndices cfg (List.range cfg.filenames.length))).flatten
      = (List.range cfg.filenames.length).take
          (min (k * cfg.batch_size) cfg.filenames.length) := by
  induction k with
  | zero => simp
  | succ k ih =>
    rw [List.range_succ, List.map_append, List.flatten_append, ih]
    simp only [List.map_cons, List.map_nil, List.flatten_cons, List.flatten_nil,
      List.append_nil]
    rw [sliceIndices_minEq]
    have hsb : (k + 1) * cfg.batch_size = k * cfg.batch_size + cfg.batch_size := by ring
    by_cases hk : k * cfg.batch_size < cfg.filenames.length
    case pos =>
      have hmin1 : min (k * cfg.batch_size) cfg.filenames.length
          = k * cfg.batch_size := by omega
      have hsplit : min ((k + 1) * cfg.batch_size) cfg.filenames.length =
          k * cfg.batch_size +
            (min ((k + 1) * cfg.batch_size) cfg.filenames.length
              - k * cfg.batch_size) := by omega
      rw [hmin1]
      conv_rhs => rw [hsplit]
      rw [List.take_add]
    case neg =>
      have hmin1 : min (k * cfg.batch_size) cfg.filenames.length
          = cfg.filenames.length := by omega
      have hz : min ((k + 1) * cfg.batch_size) cfg.filenames.length
          - k * cfg.batch_size = 0 := by omega
      have hmin2 : min ((k + 1) * cfg.batch_size) cfg.filenames.length
          = cfg.filenames.length := by omega
      rw [hmin1, hz, hmin2, List.take_zero, List.append_nil]

theorem epochLen_nat_isLeast (cfg : Config) (hb : 0 < cfg.batch_size)
    (ha : cfg.aug_factor = 0) :
    IsLeast {n : ℕ | cfg.filenames.length ≤ n * cfg.batch_size} (epochLen cfg) := by
  have h := epochLen_isLeast cfg hb (by rw [ha])
  rw [ha] at h
  constructor
  · have h1 := h.1
    simp only [Set.mem_setOf_eq] at h1 ⊢
    rw [show ((cfg.filenames.length : ℚ) * (1 + 0)) = (cfg.filenames.length : ℚ)
      by ring] at h1
    exact_mod_cast h1
  · intro m hm
    simp only [Set.mem_setOf_eq] at hm
    apply h.2
    simp only [Set.mem_setOf_eq]
    rw [show ((cfg.filenames.length : ℚ) * (1 + 0)) = (cfg.filenames.length : ℚ) by ring]
    exact_mod_cast hm

theorem map_load_range (cfg : Config) :
    (List.range cfg.filenames.length).map (load cfg) = cfg.filenames := by
  apply List.ext_getElem
  · simp
  · intro i h1 h2
    simp only [List.getElem_map, List.getElem_range, load]
    rw [List.getD_eq_getElem cfg.filenames [] (by simpa using h2)]

/-- C5: in non-balanced, non-augmented, non-shuffled (and non-normalizing,
zero-fraction) mode, concatenating the batches `__getitem__` produces for
indices `0 .. __len__() - 1` reproduces the dataset in its original order
exactly once (each batch is exactly its slice of samples with one-hot
labels), and the final batch has `len % batch_size` samples, or a full
`batch_size` when `batch_size` divides the dataset length. -/
theorem C5_sequential_coverage (cfg : Config) (o : Rand)
    (hbal : cfg.balance = false) (haug : cfg.augment = false)
    (hshuf : cfg.shuffle = false) (ha : cfg.aug_factor = 0)
    (hmean : cfg.mean = none) (hb : 0 < cfg.batch_size)
    (hn : 0 < cfg.filenames.length) :
    (((List.range (epochLen cfg)).map
        (fun i => (sliceIndices cfg (onEpochEnd cfg o) i).map (load cfg))).flatten
      = cfg.filenames) ∧
    (∀ i, getItem cfg o (onEpochEnd cfg o) i =
      .ok (((sliceIndices cfg (onEpochEnd cfg o) i).map (load cfg)),
        ((sliceIndices cfg (onEpochEnd cfg o) i).map (labelOf cfg)).map
          (oneHot cfg.n_classes))) ∧
    ((sliceIndices cfg (onEpochEnd cfg o) (epochLen cfg - 1)).length =
      if cfg.filenames.length % cfg.batch_size = 0 then cfg.batch_size
      else cfg.filenames.length % cfg.batch_size) := by
  have hperm : onEpochEnd cfg o = List.range cfg.filenames.length := by
    unfold onEpochEnd
    rw [hshuf]
    simp
  have hleast := epochLen_nat_isLeast cfg hb ha
  have hEb : cfg.filenames.length ≤ epochLen cfg * cfg.batch_size := hleast.1
  have hE1 : 1 ≤ epochLen cfg := by
    by_contra hc
    push_neg at hc
    have hz : epochLen cfg = 0 := by omega
    rw [hz, Nat.zero_mul] at hEb
    omega
  have hmul : epochLen cfg * cfg.batch_size
      = (epochLen cfg - 1) * cfg.batch_size + cfg.batch_size := by
    conv_lhs => rw [← Nat.sub_add_cancel hE1]
    ring
  have hE2 : (epochLen cfg - 1) * cfg.batch_size < cfg.filenames.length := by
    by_contra hc
    push_neg at hc
    have := hleast.2 hc
    omega
  refine ⟨?_, ?_, ?_⟩
  · rw [hperm]
    have hmm : (List.range (epochLen cfg)).map
        (fun i => (sliceIndices cfg (List.range cfg.filenames.length) i).map (load cfg))
        = ((List.range (epochLen cfg)).map
            (sliceIndices cfg (List.range cfg.filenames.length))).map
            (List.map (load cfg)) := by
      rw [List.map_map]
      rfl
    rw [hmm, ← List.map_flatten, flat_slices]
    have hminL : min (epochLen cfg * cfg.batch_size) cfg.filenames.length
        = cfg.filenames.length := by omega
    rw [hminL, List.take_of_length_le (by simp), map_load_range]
  · intro i
    have hslice_le : (sliceIndices cfg (onEpochEnd cfg o) i).length
        ≤ cfg.batch_size := by
      rw [hperm, sliceIndices_minEq, List.length_take, List.length_drop,
        List.length_range]
      have hsb : (i + 1) * cfg.batch_size = i * cfg.batch_size + cfg.batch_size := by
        ring
      omega
    unfold getItem selectIndices
    rw [hbal, if_pos rfl]
    simp only [Except.bind]
    unfold dataGeneration assemble
    dsimp only
    rw [if_pos hslice_le]
    rw [if_neg (by rw [haug]; exact Bool.false_ne_true)]
    simp only [Except.map]
    rw [normalizeBatch_none cfg _ hmean]
  · have hsl : (sliceIndices cfg (onEpochEnd cfg o) (epochLen cfg - 1)).length
        = cfg.filenames.length - (epochLen cfg - 1) * cfg.batch_size := by
      rw [hperm, sliceIndices_minEq, List.length_take, List.length_drop,
        List.length_range]
      have hsucc : (epochLen cfg - 1 + 1) = epochLen cfg := by omega
      rw [hsucc]
      omega
    have hq := Nat.div_add_mod' cfg.filenames.length cfg.batch_size
    have hr : cfg.filenames.length % cfg.batch_size < cfg.batch_size :=
      Nat.mod_lt _ hb
    rw [hsl]
    split
    case isTrue h0 =>
      have hL : cfg.filenames.length
          = (cfg.filenames.length / cfg.batch_size) * cfg.batch_size := by omega
      have h1 : epochLen cfg - 1 < cfg.filenames.length / cfg.batch_size := by
        have h2 : (epochLen cfg - 1) * cfg.batch_size <
            (cfg.filenames.length / cfg.batch_size) * cfg.batch_size := by omega
        exact lt_of_mul_lt_mul_right h2 (Nat.zero_le _)
      have h3 : cfg.filenames.length / cfg.batch_size ≤ epochLen cfg := by
        have h4 : (cfg.filenames.length / cfg.batch_size) * cfg.batch_size ≤
            epochLen cfg * cfg.batch_size := by omega
        exact Nat.le_of_mul_le_mul_right h4 hb
      have h5 : cfg.filenames.length / cfg.batch_size = epochLen cfg := by omega
      rw [h5] at hL
      omega
    case isFalse h0 =>
      have h1 : epochLen cfg - 1 < cfg.filenames.length / cfg.batch_size + 1 := by
        have hexp : (cfg.filenames.length / cfg.batch_size + 1) * cfg.batch_size =
            (cfg.filenames.length / cfg.batch_size) * cfg.batch_size
              + cfg.batch_size := by ring
        have h2 : (epochLen cfg - 1) * cfg.batch_size <
            (cfg.filenames.length / cfg.batch_size + 1) * cfg.batch_size := by omega
        exact lt_of_mul_lt_mul_right h2 (Nat.zero_le _)
      have h3 : cfg.filenames.length / cfg.batch_size < epochLen cfg := by
        have h4 : (cfg.filenames.length / cfg.batch_size) * cfg.batch_size <
            epochLen cfg * cfg.batch_size := by omega
        exact lt_of_mul_lt_mul_right h4 (Nat.zero_le _)
      have h5 : cfg.filenames.length / cfg.batch_size = epochLen cfg - 1 := by omega
      have h6 : (cfg.filenames.length / cfg.batch_size) * cfg.batch_size =
          (epochLen cfg - 1) * cfg.batch_size := by rw [h5]
      omega

theorem C5_witness :
    (((List.range (epochLen cfgW5)).map
        (fun i => (sliceIndices cfgW5 (onEpochEnd cfgW5 takeOracle) i).map
          (load cfgW5))).flatten = cfgW5.filenames) ∧
    getItem cfgW5 takeOracle (onEpochEnd cfgW5 takeOracle) 2 =
      .ok (((sliceIndices cfgW5 (onEpochEnd cfgW5 takeOracle) 2).map (load cfgW5)),
        ((sliceIndices cfgW5 (onEpochEnd cfgW5 takeOracle) 2).map (labelOf cfgW5)).map
          (oneHot cfgW5.n_classes)) ∧
    ((sliceIndices cfgW5 (onEpochEnd cfgW5 takeOracle) (epochLen cfgW5 - 1)).length =
      if cfgW5.filenames.length % cfgW5.batch_size = 0 then cfgW5.batch_size
      else cfgW5.filenames.length % cfgW5.batch_size) :=
  have h := C5_sequential_coverage cfgW5 takeOracle rfl rfl rfl rfl rfl
    (by decide) (by decide)
  ⟨h.1, h.2.1 2, h.2.2⟩
